import Mathlib

/-!
# Shallow embedding of the `weave_python` weaving pipeline

This file embeds the core of the repository — the constructive weaving
algorithm that builds a Hamiltonian cycle over a "Manhattan ball" — as
executable Lean definitions, and proves (or refutes) the frozen claims
about it.

Source modules embedded here:
* `src/weaver/info.py`  — layer arithmetic (`get_order_from_n`, …)
* `src/weaver/ops.py`   — `spin_yarn`, `pin_thread_ends`, `chop`,
  `extend_threads`, `mirror_chains`, `merge_cycles`
* `src/weaver/utils.py` — the `Weaver` and `LoomThread` classes
* `src/weave.py`        — the `weave` driver

Python's mutable state is made explicit: functions that mutate their
arguments in place (`chop` truncates the tour, `merge_cycles` pops the
loom and realigns donor threads in place) return the mutated value as an
extra component.  Python `set`s of points/edges are modelled as
deduplicated lists (membership-equivalent, with a fixed deterministic
order standing in for CPython's arbitrary-but-fixed iteration order);
`set.pop()` becomes "take the head, or fail on the empty list".
Operations that would raise in Python (`list.pop(0)` on an empty loom,
`set().pop()`) return `none`.
-/

/-- A lattice vertex: an ordered triple of integers (`types.Point`). -/
abbrev Point : Type := Int × Int × Int

/-- An edge: an ordered pair of points (`types.Edge`). -/
abbrev Edge : Type := Point × Point

/-- A 2D point of a yarn (no z-coordinate). -/
abbrev P2 : Type := Int × Int

/-- x-coordinate of a point. -/
def px (p : Point) : Int := p.1

/-- y-coordinate of a point. -/
def py (p : Point) : Int := p.2.1

/-- z-coordinate of a point. -/
def pz (p : Point) : Int := p.2.2

/-- Python tuple comparison `u < v` on 3-tuples (lexicographic). -/
def ptLt (u v : Point) : Bool :=
  decide (u.1 < v.1) ||
    (decide (u.1 = v.1) &&
      (decide (u.2.1 < v.2.1) ||
        (decide (u.2.1 = v.2.1) && decide (u.2.2 < v.2.2))))

/-- `(u, v) if u < v else (v, u)`: canonical orientation of an edge. -/
def canonE (u v : Point) : Edge := if ptLt u v then (u, v) else (v, u)

/-! ## `src/weaver/info.py` -/

/-- `get_order_from_n`: `(4 * (n + 2) * (n + 1) * n) // 3`. -/
def get_order_from_n (n : Nat) : Nat := 4 * (n + 2) * (n + 1) * n / 3

/-- `get_radius_from_n`: `n * 2 - 1` (as an integer, faithful at `n = 0`). -/
def get_radius_from_n (n : Nat) : Int := (n : Int) * 2 - 1

/-- `get_n_from_radius`: `(radius + 1) // 2` (only ever used on odd `radius ≥ 1`). -/
def get_n_from_radius (radius : Nat) : Nat := (radius + 1) / 2

/-- `get_z_color_size`: zips the odd elevations `-(2n-1), …, -1` with the
alternating color pattern and the per-level sizes `2·i·(i+1)`.
Python's `zip` truncates to the shortest iterator (length `n`). -/
def get_z_color_size (n : Nat) : List (Int × Nat × Nat) :=
  let zs : List Int := (List.range n).map (fun i => -((n : Int) * 2 - 1) + 2 * i)
  let colors : List Nat :=
    (List.replicate n (if n % 2 = 0 then [1, 3] else [3, 1])).flatten
  let sizes : List Nat := (List.range n).map (fun i => 2 * (i + 1) * (i + 2))
  zs.zip (colors.zip sizes)

/-! ## `spin_yarn` (`src/weaver/ops.py`) -/

/-- The four XY zigzag displacement pairs of `spin_yarn`. -/
def zigzagsBase : List (P2 × P2) :=
  [((0, 2), (2, 0)), ((0, 2), (-2, 0)), ((0, -2), (-2, 0)), ((0, -2), (2, 0))]

/-- The flattened size list `[[x] * (2 if x != radius else 3) for x in range(1, radius+1, 2)]`. -/
def spinSizes (radius : Nat) : List Nat :=
  ((List.range ((radius + 1) / 2)).map (fun i => 2 * i + 1)).flatMap
    (fun x => List.replicate (if x = radius then 3 else 2) x)

/-- Start vector: `(1, 1)` when `((radius+1)//2)` is even, else `(-1, 1)`. -/
def spinStart (radius : Nat) : P2 :=
  if (radius + 1) / 2 % 2 = 0 then (1, 1) else (-1, 1)

/-- The list of zigzag displacement vectors collected by `spin_yarn`:
`dpv[idx % 4][(idx + isize) % 2]` for each `idx, size` and `isize < size`. -/
def spinDisp (radius : Nat) : List P2 :=
  let dpv : List (P2 × P2) :=
    if (radius + 1) / 2 % 2 = 0 then zigzagsBase else zigzagsBase.rotate 2
  ((spinSizes radius).enum).flatMap (fun p =>
    (List.range p.2).map (fun isize =>
      let zz := dpv.getD (p.1 % 4) ((0, 0), (0, 0))
      if (p.1 + isize) % 2 = 0 then zz.1 else zz.2))

/-- The accumulated color-3 ("blue") yarn: start vector followed by the
partial sums of the zigzag displacements. -/
def spunPath (radius : Nat) : List P2 :=
  (spinDisp radius).scanl (fun p d => (p.1 + d.1, p.2 + d.2)) (spinStart radius)

/-- The numpy transform `np.add(np.dot(p, [[-1,0],[0,-1]]), [0,2])` applied
to one 2D point: point-reflection through the origin, then `+(0, 2)`. -/
def reflectShift (p : P2) : P2 :=
  (p.1 * (-1) + p.2 * 0 + 0, p.1 * 0 + p.2 * (-1) + 2)

/-- `spin_yarn(radius)[color]`: the color-3 yarn is `spun` itself, the
color-1 yarn is its reflected-and-shifted image. -/
def spin_yarn (radius : Nat) (color : Nat) : List P2 :=
  if color = 3 then spunPath radius else (spunPath radius).map reflectShift

/-! ## `pin_thread_ends` (`src/weaver/ops.py`) -/

/-- `pin_thread_ends(loom, z)`: for each thread, push a copy of its head
and of its tail moved to elevation `z`, and collect those new points as
pins.  Returns the mutated loom together with the pin set (as a list with
membership semantics).  An empty thread is left untouched (in Python,
`thread[0]` would raise; the pipeline never produces empty threads). -/
def pin_thread_ends (loom : List (List Point)) (z : Int) :
    List (List Point) × List Point :=
  loom.foldl
    (fun acc thread =>
      match thread with
      | [] => (acc.1 ++ [thread], acc.2)
      | t0 :: _ =>
        let lft : Point := (px t0, py t0, z)
        let lst := thread.getLastD t0
        let rgt : Point := (px lst, py lst, z)
        (acc.1 ++ [lft :: thread ++ [rgt]], acc.2 ++ [lft, rgt]))
    ([], [])

/-! ## `chop` (`src/weaver/ops.py`) -/

/-- `[x for x, t in enumerate(tour) if t in pins]`, with the enumeration
counter made explicit. -/
def pinIdcsFrom (pins : List Point) : Nat → List Point → List Nat
  | _, [] => []
  | i, p :: ps =>
    if p ∈ pins then i :: pinIdcsFrom pins (i + 1) ps
    else pinIdcsFrom pins (i + 1) ps

/-- The ascending list of tour positions whose point lies in `pins`. -/
def pinIdcs (tour : List Point) (pins : List Point) : List Nat :=
  pinIdcsFrom pins 0 tour

/-- The body of `chop`'s loop over `reversed(list(enumerate(idcs)))`.
The argument list is the *reversed* index list; the last element processed
is the one enumerated `i = 0`, which receives the special first-point
treatment.  State: accumulated subtours and the (truncated) tour. -/
def chopGo (pins : List Point) :
    List Point → List (List Point) → List Nat → List (List Point) × List Point
  | tour, subtours, [] => (subtours, tour)
  | tour, subtours, [j] =>
    if tour.headD (0, 0, 0) ∈ pins then
      -- `tour[0] in pins`: take the whole remaining tour, truncate at `j`
      (subtours ++ [tour.drop j], tour.take j)
    else
      -- first instance and first item not a pin: reversed prefix, then the
      -- remainder if (and only if) it is nonempty
      (subtours ++ [(tour.take (j + 1)).reverse] ++
        (if tour.drop (j + 1) = [] then [] else [tour.drop (j + 1)]),
       tour)
  | tour, subtours, j :: j' :: js =>
    chopGo pins (tour.take j) (subtours ++ [tour.drop j]) (j' :: js)

/-- `chop(tour, pins)`: cut `tour` into subtours at the pin positions.
Returns the subtours together with the final (destructively truncated)
state of the caller's tour list. -/
def chop (tour : List Point) (pins : List Point) :
    List (List Point) × List Point :=
  if pins = [] then ([tour.reverse], tour)
  else chopGo pins tour [] (pinIdcs tour pins).reverse

/-! ## `extend_threads` (`src/weaver/ops.py`) -/

/-- One head/tail match attempt of `extend_threads`: if the subtour's
first point equals the thread's head, prepend the rest of the subtour
(reversed, as `deque.extendleft` does); if it equals the thread's tail,
append the rest; otherwise report no match. -/
def tryExtend (thread : List Point) (subtour : List Point) :
    Option (List Point) :=
  match thread, subtour with
  | [], _ => none
  | _, [] => none
  | t0 :: _, s0 :: srest =>
    if t0 = s0 then some (srest.reverse ++ thread)
    else if thread.getLastD t0 = s0 then some (thread ++ srest)
    else none

/-- Inner loop step of `extend_threads`: skip already-used subtour
indices, otherwise try to extend the current thread. -/
def matchStep (st : List Point × List Nat) (p : Nat × List Point) :
    List Point × List Nat :=
  if p.1 ∈ st.2 then st
  else
    match tryExtend st.1 p.2 with
    | some t' => (t', p.1 :: st.2)
    | none => st

/-- The two nested loops of `extend_threads`: every thread of the loom
scans the enumerated subtours, extending itself with each unused match.
Returns the extended threads and the set of used subtour indices. -/
def extendThreadsCore (loom : List (List Point))
    (subtours : List (List Point)) : List (List Point) × List Nat :=
  loom.foldl
    (fun acc thread =>
      let r := subtours.enum.foldl matchStep (thread, acc.2)
      (acc.1 ++ [r.1], r.2))
    ([], [])

/-- The filter `idx not in used` of `extend_threads`' final comprehension. -/
def notUsed (used : List Nat) (p : Nat × List Point) : Bool :=
  decide (p.1 ∉ used)

/-- `extend_threads(loom, subtours)`: extend matching threads, then append
each unused subtour as a brand-new thread. -/
def extend_threads (loom : List (List Point))
    (subtours : List (List Point)) : List (List Point) :=
  let r := extendThreadsCore loom subtours
  r.1 ++ (subtours.enum.filter (notUsed r.2)).map Prod.snd

/-! ## `mirror_chains` (`src/weaver/ops.py`) -/

/-- `(x, y, -z)`: reflection across the z = 0 plane. -/
def mirrorZ (p : Point) : Point := (px p, py p, -pz p)

/-- The new value of one thread after `mirror_chains`: the thread followed
by its own reverse with every z negated. -/
def mirrorOne (t : List Point) : List Point := t ++ t.reverse.map mirrorZ

/-- `mirror_chains(loom)`: close every chain into a loop. -/
def mirror_chains (loom : List (List Point)) : List (List Point) :=
  loom.map mirrorOne

/-! ## `Weaver` and `LoomThread` (`src/weaver/utils.py`) -/

/-- The `Weaver` object: the accumulating merged cycle plus its merge
bookkeeping (`joined` flag, elevation tracking). -/
structure Weaver where
  data : List Point
  order : Nat
  joined : Bool
  zAbsMax : Int
  zcAbsSum : Int
deriving Repr, DecidableEq

/-- `Weaver.__init__(data, radius, order)`. -/
def Weaver.init (data : List Point) (radius : Int) (order : Nat) : Weaver :=
  { data := data
    order := order
    joined := false
    zAbsMax := radius - 4
    zcAbsSum := (radius - 4) * 2 }

/-- The `Weaver.edges` property: consecutive pairs of `data`, canonically
oriented, filtered by `([u.x, v.x] == [1,3] and not joined) or
([u.x, v.x] == [1,1] and joined and u.z + v.z in {-zc_abs_sum, zc_abs_sum})`
(Python's `and` binds tighter than `or`). -/
def Weaver.edges (w : Weaver) : List Edge :=
  ((w.data.zip w.data.tail).filter
    (fun p =>
      (decide (px p.1 = 1) && decide (px p.2 = 3) && !w.joined) ||
        (decide (px p.1 = 1) && decide (px p.2 = 1) && w.joined &&
          (decide (pz p.1 + pz p.2 = -w.zcAbsSum) ||
            decide (pz p.1 + pz p.2 = w.zcAbsSum))))).map
    (fun p => canonE p.1 p.2) |>.dedup

/-- `Weaver.get_eadj(edge)`: the single adjacent parallel edge — shifted
`+2` along y when the edge runs along x, else `+2` along x. -/
def Weaver.get_eadj (e : Edge) : Edge :=
  let a := px e.1; let b := py e.1; let c := pz e.1
  let x := px e.2; let y := py e.2; let z := pz e.2
  if a ≠ x then ((a, b + 2, c), (x, y + 2, z))
  else ((a + 2, b, c), (x + 2, y, z))

/-- `Weaver.align_to(data, lhs, rhs)`: rotate (or reverse-rotate) `data` in
place so that it starts at `lhs` and ends at `rhs`.  `lix`/`rix` are
`data.index(...)`; Lean's `indexOf` returns `data.length` where Python
would raise `ValueError` (the pipeline only aligns to endpoints of edges
of `data`, where both points are present). -/
def Weaver.align_to (data : List Point) (lhs rhs : Point) : List Point :=
  if data.findIdx (fun b => decide (b = lhs)) <
      data.findIdx (fun b => decide (b = rhs)) then
    (data.take (data.findIdx (fun b => decide (b = rhs)))).reverse ++
      (data.drop (data.findIdx (fun b => decide (b = rhs)))).reverse
  else
    data.drop (data.findIdx (fun b => decide (b = lhs))) ++
      data.take (data.findIdx (fun b => decide (b = lhs)))

/-- `Weaver.join(other)`: append the aligned donor and update the
elevation bookkeeping (`-2` on the first join, `-4` afterwards). -/
def Weaver.join (w : Weaver) (other : List Point) : Weaver :=
  let zam := if w.joined then w.zAbsMax - 4 else w.zAbsMax - 2
  { w with
    data := w.data ++ other
    joined := true
    zAbsMax := zam
    zcAbsSum := zam * 2 - 2 }

/-- `LoomThread.get_edges(data, joined)`: consecutive pairs `(m, n)` with
`[n.y, m.x, m.y] == ([1,3,1] if joined else [3,1,3])`, canonically
oriented. -/
def LoomThread.get_edges (data : List Point) (joined : Bool) : List Edge :=
  ((data.zip data.tail).filter
    (fun p =>
      if joined then
        decide (py p.2 = 1) && decide (px p.1 = 3) && decide (py p.1 = 1)
      else
        decide (py p.2 = 3) && decide (px p.1 = 1) && decide (py p.1 = 3))).map
    (fun p => canonE p.1 p.2) |>.dedup

/-- `LoomThread.get_eadjs(edges)`: one adjacent edge per edge (cyclic
shift `x→y→z→x`, with the source's signs), restricted to edges whose
second endpoint has x and y coordinates in `{1, 3}`. -/
def LoomThread.get_eadjs (edges : List Edge) : List Edge :=
  (edges.filter
    (fun e =>
      (decide (px e.2 = 1) || decide (px e.2 = 3)) &&
        (decide (py e.2 = 1) || decide (py e.2 = 3)))).map
    (fun e =>
      let a := px e.1; let b := py e.1; let c := pz e.1
      let x := px e.2; let y := py e.2; let z := pz e.2
      if a ≠ x then ((a, b - 2, c), (x, y - 2, z))
      else if b ≠ y then ((a, b, c + 2), (x, y, z + 2))
      else ((a - 2, b, c), (x - 2, y, z))) |>.dedup

/-! ## `merge_cycles` (`src/weaver/ops.py`) -/

/-- Python set intersection `a & b`, on our deduplicated-list model: the
elements of `a` that also lie in `b` (deterministic order from `a`). -/
def interE (a b : List Edge) : List Edge := a.filter (fun e => decide (e ∈ b))

/-- The first bridge intersection of one merge step:
`weaver.edges & LoomThread.get_eadjs(thread_edges)`. -/
def weftCandidates (w : Weaver) (thread : List Point) : List Edge :=
  interE w.edges (LoomThread.get_eadjs (LoomThread.get_edges thread w.joined))

/-- The second bridge intersection of one merge step:
`thread_edges & Weaver.get_eadj(weft_bridge)` for the popped
`weft_bridge`.  Empty when the first intersection is empty. -/
def threadCandidates (w : Weaver) (thread : List Point) : List Edge :=
  match weftCandidates w thread with
  | [] => []
  | wb :: _ =>
    interE (LoomThread.get_edges thread w.joined) [Weaver.get_eadj wb]

/-- One iteration of `merge_cycles`' loop: find the bridge, align the
weaver and the donor, join.  `set.pop()` takes the head of the
intersection and fails (Python `KeyError`) only when it is empty.
Returns the updated weaver together with the donor thread as left in the
loom (realigned in place by `align_to`). -/
def mergeStep (w : Weaver) (thread : List Point) :
    Option (Weaver × List Point) :=
  match weftCandidates w thread with
  | [] => none
  | wb :: _ =>
    let data' := Weaver.align_to w.data wb.1 wb.2
    match threadCandidates w thread with
    | [] => none
    | tb :: _ =>
      let thread' := Weaver.align_to thread tb.2 tb.1
      some (Weaver.join { w with data := data' } thread', thread')

/-- The loop of `merge_cycles` over the remaining loom; `acc` collects the
donor threads as they remain in the caller's loom (realigned in place). -/
def mergeGo (w : Weaver) (acc : List (List Point)) :
    List (List Point) → Option (List Point × List (List Point))
  | [] => some (w.data, acc)
  | t :: ts =>
    match mergeStep w t with
    | none => none
    | some r => mergeGo r.1 (acc ++ [r.2]) ts

/-- `merge_cycles(loom, radius, order)`, with the final state of the
caller's loom made explicit: `loom.pop(0)` seeds the weaver (failing on an
empty loom, Python `IndexError`), the remaining threads are iterated but
never removed.  Returns `(solution, loom-after-the-call)`. -/
def merge_cycles (loom : List (List Point)) (radius : Int) (order : Nat) :
    Option (List Point × List (List Point)) :=
  match loom with
  | [] => none
  | seed :: rest => mergeGo (Weaver.init seed radius order) [] rest

/-! ## `weave` (`src/weave.py`) -/

/-- The layer-weaving loop of `weave`: build the loom level by level. -/
def weaveLoom (n : Nat) : List (List Point) :=
  (get_z_color_size n).foldl
    (fun loom zcs =>
      let tour : List Point :=
        ((spin_yarn (2 * n - 1) zcs.2.1).take zcs.2.2).map
          (fun q => (q.1, q.2, zcs.1))
      let pinned := pin_thread_ends loom zcs.1
      extend_threads pinned.1 (chop tour pinned.2).1)
    []

/-- `weave(n)`: the full pipeline.  Returns the solution together with the
final loom state (`none` where Python would raise). -/
def weave (n : Nat) : Option (List Point) :=
  (merge_cycles (mirror_chains (weaveLoom n)) (get_radius_from_n n)
      (get_order_from_n n)).map Prod.fst

/-! ## Solution checker predicates (for stating the claims) -/

/-- One lattice step: the two points differ in exactly one coordinate, by
exactly 2. -/
def isStep (p q : Point) : Bool :=
  (decide ((px p - px q).natAbs = 2) && decide ((py p - py q).natAbs = 0) &&
      decide ((pz p - pz q).natAbs = 0)) ||
    (decide ((px p - px q).natAbs = 0) && decide ((py p - py q).natAbs = 2) &&
      decide ((pz p - pz q).natAbs = 0)) ||
    (decide ((px p - px q).natAbs = 0) && decide ((py p - py q).natAbs = 0) &&
      decide ((pz p - pz q).natAbs = 2))

/-- Every consecutive pair of the list is a lattice step (open path). -/
def isPathB (l : List Point) : Bool :=
  (l.zip l.tail).all (fun p => isStep p.1 p.2)

/-- Closed cycle: an open path whose wrap-around pair also steps. -/
def isCycleB (l : List Point) : Bool :=
  match l with
  | [] => true
  | h :: _ => isPathB l && isStep (l.getLastD h) h

/-- Sum of per-step displacement vectors around the full cycle (including
wrap-around); `(0, 0, 0)` for any closed list. -/
def totalDisp (l : List Point) : Point :=
  match l with
  | [] => (0, 0, 0)
  | h :: _ =>
    (l.zip (l.tail ++ [h])).foldl
      (fun acc p =>
        (acc.1 + (px p.1 - px p.2), acc.2.1 + (py p.1 - py p.2),
          acc.2.2 + (pz p.1 - pz p.2)))
      (0, 0, 0)

/-- Open unit-step path: every two consecutive points are one lattice step
apart. -/
abbrev IsPath (l : List Point) : Prop := isPathB l = true

/-- Closed cycle: every two consecutive points, including the wrap-around
pair (last, first), are one lattice step apart. -/
abbrev IsCycle (l : List Point) : Prop := isPathB (l ++ l.take 1) = true

/-! ## Specification-side definitions

The definitions below are written from the spec's (amended) words, to be
compared with the source-derived definitions above. -/

/-- The contiguous segment `tour[a:b]` of a tour. -/
def tourSlice (l : List Point) (a b : Nat) : List Point := (l.drop a).take (b - a)

/-- Adjacent pairs of a list: `[(l₀,l₁), (l₁,l₂), …]`. -/
def adjPairs : List Nat → List (Nat × Nat)
  | [] => []
  | [_] => []
  | a :: b :: t => (a, b) :: adjPairs (b :: t)

/-- Specification of `chop`'s returned fragments, written as direct slices
of the (unmutated) tour.  With pin positions `j₁ < … < j_k` the fragments
are, in order: the slices between consecutive pin positions (and the final
suffix), in reverse position order, and then the leading part — the slice
`tour[0:j₂]` when the tour's first point is itself a pin, or the reversed
prefix `tour[0:j₁+1]` followed by the (omitted-if-empty) slice
`tour[j₁+1:j₂]` when it is not.  `specFragsAux` gives the fragments cut
for pin positions `j1 :: rest` (ascending). -/
def specFragsAux (tour : List Point) (j1 : Nat) (rest : List Nat) :
    List (List Point) :=
  ((adjPairs (rest ++ [tour.length])).map
      (fun p => tourSlice tour p.1 p.2)).reverse ++
    (if j1 = 0 then
      [tourSlice tour 0 ((rest ++ [tour.length]).headD tour.length)]
    else
      [(tour.take (j1 + 1)).reverse] ++
        (if tourSlice tour (j1 + 1) ((rest ++ [tour.length]).headD tour.length)
            = [] then []
         else
          [tourSlice tour (j1 + 1)
            ((rest ++ [tour.length]).headD tour.length)]))

/-- The truncated tour left behind for pin positions `j1 :: rest`. -/
def specTourAux (tour : List Point) (j1 : Nat) (rest : List Nat) :
    List Point :=
  if j1 = 0 then [] else tour.take ((rest ++ [tour.length]).headD tour.length)

def chopSpecFrags (tour pins : List Point) : List (List Point) :=
  if pins = [] then [tour.reverse]
  else
    match pinIdcs tour pins with
    | [] => []
    | j1 :: rest => specFragsAux tour j1 rest

/-- Specification of the final state of the caller's tour list after
`chop`: unmodified when no position is cut or when exactly one position
past the first point is cut; emptied when the first point is a pin;
truncated to just below the second pin position otherwise. -/
def chopFinalTour (tour pins : List Point) : List Point :=
  if pins = [] then tour
  else
    match pinIdcs tour pins with
    | [] => tour
    | j1 :: rest => specTourAux tour j1 rest

/-- The tour's own first point is a pin. -/
def firstPinB (tour pins : List Point) : Bool :=
  match tour with
  | [] => false
  | t0 :: _ => decide (t0 ∈ pins)

/-- Specification of one thread's pass over the not-yet-consumed
fragments (amended tie-break for `extend_threads`): scan left to right;
a fragment whose first point matches the thread's current head is
prepended (rest reversed), one matching its current tail is appended;
matched fragments are consumed, the others are kept in order. -/
def threadPass (thread : List Point) :
    List (List Point) → List Point × List (List Point)
  | [] => (thread, [])
  | f :: fs =>
    match tryExtend thread f with
    | some t' => threadPass t' fs
    | none =>
      let r := threadPass thread fs
      (r.1, f :: r.2)

/-- Specification of `extend_threads` (amended): each thread of the loom,
in loom order, performs one pass over the remaining fragments — whether or
not it was already extended — and the fragments left over at the end each
seed a brand-new thread, in order. -/
def extendThreadsModel (loom : List (List Point))
    (frags : List (List Point)) : List (List Point) :=
  let r :=
    loom.foldl
      (fun acc t =>
        let s := threadPass t acc.2
        (acc.1 ++ [s.1], s.2))
      ([], frags)
  r.1 ++ r.2

/-- All cyclic rotations of a list. -/
def rotationsOf (l : List Point) : List (List Point) :=
  (List.range l.length).map (fun k => l.rotate k)

/-- The spec's description of the color-1 yarn transform: point-reflection
through the origin, then one positive step (2 units… one unit step of the
edge-2 lattice) along y. -/
def reflectTranslate (p : P2) : P2 := (-p.1, -p.2 + 2)

/-! ## Concrete fixtures used by counterexamples and witnesses -/

/-- A four-point closed rectangle used as an artificial seed cycle. -/
def fixA : List Point := [(1, 1, 1), (3, 1, 1), (1, 1, 3), (3, 1, 3)]

/-- A second artificial cycle parallel to `fixA` one step along y. -/
def fixB : List Point := [(1, 3, 1), (3, 3, 1), (1, 3, 3), (3, 3, 3)]

/-- The loom of closed cycles entering `merge_cycles` in the real
`weave(5)` run. -/
def loom5 : List (List Point) := mirror_chains (weaveLoom 5)

/-- The weaver seeded from the first cycle of `loom5`, as `merge_cycles`
builds it for `n = 5`. -/
def weaver5 : Weaver :=
  Weaver.init (loom5.headD []) (get_radius_from_n 5) (get_order_from_n 5)

/-- The weaver state after the first merge step of the `n = 5` run. -/
def weaver5AfterOne : Weaver :=
  match mergeStep weaver5 (loom5.getD 1 []) with
  | some r => r.1
  | none => weaver5

/-! ## Basic lemmas -/

theorem px_mk (a b c : Int) : px (a, b, c) = a := rfl

theorem py_mk (a b c : Int) : py (a, b, c) = b := rfl

theorem pz_mk (a b c : Int) : pz (a, b, c) = c := rfl

/-- `isStep` unfolded to a proposition about coordinate differences. -/
theorem isStep_iff (p q : Point) :
    isStep p q = true ↔
      ((px p - px q).natAbs = 2 ∧ (py p - py q).natAbs = 0 ∧
          (pz p - pz q).natAbs = 0) ∨
        ((px p - px q).natAbs = 0 ∧ (py p - py q).natAbs = 2 ∧
          (pz p - pz q).natAbs = 0) ∨
        ((px p - px q).natAbs = 0 ∧ (py p - py q).natAbs = 0 ∧
          (pz p - pz q).natAbs = 2) := by
  simp only [isStep, Bool.or_eq_true, Bool.and_eq_true, decide_eq_true_eq,
    and_assoc]
  tauto

/-- A lattice step is symmetric. -/
theorem isStep_comm (p q : Point) : isStep p q = true ↔ isStep q p = true := by
  rw [isStep_iff, isStep_iff]; omega

/-- Reflection across z = 0 preserves lattice steps. -/
theorem isStep_mirrorZ (p q : Point) :
    isStep (mirrorZ p) (mirrorZ q) = true ↔ isStep p q = true := by
  rw [isStep_iff, isStep_iff]
  simp only [mirrorZ, px_mk, py_mk, pz_mk]
  omega

/-- `isPathB` agrees with `List.Chain'` of the step relation. -/
theorem isPathB_chain' : ∀ l : List Point,
    (isPathB l = true ↔ List.Chain' (fun p q => isStep p q = true) l)
  | [] => by simp [isPathB]
  | [a] => by simp [isPathB]
  | a :: b :: t => by
    have h := isPathB_chain' (b :: t)
    rw [List.chain'_cons, ← h]
    simp [isPathB]

/-- The reversed, z-negated copy of a path is again a path. -/
theorem chain'_mirror (t : List Point) :
    List.Chain' (fun p q => isStep p q = true) (t.reverse.map mirrorZ) ↔
      List.Chain' (fun p q => isStep p q = true) t := by
  rw [List.chain'_map, List.chain'_reverse]
  constructor
  · intro h
    exact h.imp (fun a b hab =>
      (isStep_comm a b).mpr ((isStep_mirrorZ b a).mp hab))
  · intro h
    exact h.imp (fun a b hab =>
      (isStep_mirrorZ b a).mpr ((isStep_comm a b).mp hab))

/-! ## Claim C5 — `mirror_chains` -/

/-- Closing a single nonempty unit-step thread whose two ends sit one unit
from the z = 0 plane yields a closed cycle. -/
theorem mirrorOne_closed (t : List Point) (hne : t ≠ []) (hp : IsPath t)
    (hh : (pz (t.headD (0, 0, 0))).natAbs = 1)
    (hl : (pz (t.getLastD (0, 0, 0))).natAbs = 1) :
    IsCycle (mirrorOne t) := by
  obtain ⟨h0, t', rfl⟩ : ∃ h0 t', t = h0 :: t' :=
    match t, hne with
    | h0 :: t', _ => ⟨h0, t', rfl⟩
  refine (isPathB_chain' _).mpr ?_
  replace hp := (isPathB_chain' _).mp hp
  show List.Chain' (fun p q => isStep p q = true)
    (mirrorOne (h0 :: t') ++ (mirrorOne (h0 :: t')).take 1)
  have htake : (mirrorOne (h0 :: t')).take 1 = [h0] := rfl
  rw [htake]
  unfold mirrorOne
  rw [List.append_assoc]
  rw [List.chain'_append]
  refine ⟨hp, ?_, ?_⟩
  · rw [List.chain'_append]
    refine ⟨(chain'_mirror _).mpr hp, List.chain'_singleton _, ?_⟩
    intro x hx y hy
    have hM : ((h0 :: t').reverse.map mirrorZ).getLast? =
        ((h0 :: t').head?).map mirrorZ := by
      rw [List.getLast?_map, List.getLast?_reverse]
    rw [hM] at hx
    simp only [List.head?_cons, Option.map_some', Option.mem_def,
      Option.some.injEq] at hx
    simp only [List.head?_cons, Option.mem_def, Option.some.injEq] at hy
    subst hx; subst hy
    rw [isStep_iff]
    simp only [mirrorZ, px_mk, py_mk, pz_mk]
    simp only [List.headD_cons] at hh
    omega
  · intro x hx y hy
    have hhd : ((h0 :: t').reverse.map mirrorZ ++ [h0]).head? =
        ((h0 :: t').getLast?).map mirrorZ := by
      rw [List.head?_append_of_ne_nil, List.head?_map, List.head?_reverse]
      simp
    rw [hhd] at hy
    have hlast : (h0 :: t').getLast? = some ((h0 :: t').getLastD (0, 0, 0)) := by
      rw [List.getLastD_eq_getLast?]
      cases hresult : (h0 :: t').getLast? with
      | none => simp at hresult
      | some v => rfl
    rw [hlast] at hx hy
    simp only [Option.map_some', Option.mem_def, Option.some.injEq] at hx hy
    subst hx; subst hy
    rw [isStep_iff]
    simp only [mirrorZ, px_mk, py_mk, pz_mk]
    omega

/-- C5: `mirror_chains` replaces every thread of the loom by itself
followed by its own reverse with every z-coordinate negated, exactly
doubling its length; and for the threads the pipeline supplies (nonempty
unit-step paths whose two ends lie one unit step from the mirror plane)
every resulting thread is a closed cycle, wrap-around pair included. -/
theorem mirror_chains_doubles_and_closes (loom : List (List Point))
    (h : ∀ t ∈ loom, t ≠ [] ∧ IsPath t ∧
      (pz (t.headD (0, 0, 0))).natAbs = 1 ∧
      (pz (t.getLastD (0, 0, 0))).natAbs = 1) :
    mirror_chains loom = loom.map (fun t => t ++ t.reverse.map mirrorZ) ∧
      ∀ t ∈ loom, (mirrorOne t).length = 2 * t.length ∧ IsCycle (mirrorOne t) := by
  refine ⟨rfl, fun t ht => ⟨?_, ?_⟩⟩
  · simp only [mirrorOne, List.length_append, List.length_map,
      List.length_reverse]
    omega
  · obtain ⟨hne, hp, hh, hl⟩ := h t ht
    exact mirrorOne_closed t hne hp hh hl

/-- Witness for C5 at a concrete two-point thread. -/
theorem mirror_chains_doubles_and_closes_witness :
    mirror_chains [[(1, 1, -1), (1, -1, -1)]] =
        [[(1, 1, -1), (1, -1, -1)]].map (fun t => t ++ t.reverse.map mirrorZ) ∧
      ∀ t ∈ [[((1 : Int), (1 : Int), (-1 : Int)), (1, -1, -1)]],
        (mirrorOne t).length = 2 * t.length ∧ IsCycle (mirrorOne t) :=
  mirror_chains_doubles_and_closes _ (by decide)

/-! ## Claim C9 — `spin_yarn` -/

/-- The numpy reflect-and-shift equals the spec's
`(x, y) ↦ (-x, -y + 2)`. -/
theorem reflectShift_eq : reflectShift = reflectTranslate := by
  funext p
  unfold reflectShift reflectTranslate
  simp only [Prod.mk.injEq]
  constructor <;> ring

/-- C9 (amended): for every radius, the color-1 yarn equals the color-3
yarn point-reflected through the origin and translated one step along y
(`(x, y) ↦ (-x, -y + 2)`), elementwise and with equal lengths.  (The two
yarns are, however, not disjoint as point sets — see the
counterexample.) -/
theorem spin_yarn_reflects (radius : Nat) :
    spin_yarn radius 1 = (spin_yarn radius 3).map reflectTranslate ∧
      (spin_yarn radius 1).length = (spin_yarn radius 3).length := by
  constructor
  · show (spunPath radius).map reflectShift =
      (spunPath radius).map reflectTranslate
    rw [reflectShift_eq]
  · show ((spunPath radius).map reflectShift).length = (spunPath radius).length
    exact List.length_map _ _

/-- C9 counterexample: at radius 1 (odd, ≥ 1) the two yarns share the
point `(1, 1)` — they are not disjoint as point sets. -/
theorem spin_yarn_not_disjoint_cex :
    (1 : Nat) % 2 = 1 ∧ 1 ≤ (1 : Nat) ∧
      ((1, 1) : P2) ∈ spin_yarn 1 3 ∧ ((1, 1) : P2) ∈ spin_yarn 1 1 := by
  decide

/-! ## Claim C7 — `Weaver.align_to` -/

/-- C7 (amended): for a duplicate-free sequence and a pair `(lhs, rhs)` at
cyclically adjacent positions that do not wrap around the end of the
list, `align_to` makes the sequence start at `lhs` and end at `rhs` with
content unchanged: by a pure rotation when `rhs` immediately precedes
`lhs`, and by the *reversal* of a rotation (cyclic order flipped) when
`lhs` immediately precedes `rhs`. -/
theorem align_to_rotates (data : List Point) (i : Nat) (h : i + 1 < data.length)
    (hnd : data.Nodup) :
    (Weaver.align_to data data[i + 1] data[i] = data.rotate (i + 1) ∧
      (data.rotate (i + 1)).head? = some data[i + 1] ∧
      (data.rotate (i + 1)).getLast? = some data[i]) ∧
    (Weaver.align_to data data[i] data[i + 1] = (data.rotate (i + 1)).reverse ∧
      ((data.rotate (i + 1)).reverse).head? = some data[i] ∧
      ((data.rotate (i + 1)).reverse).getLast? = some data[i + 1]) ∧
    (data.rotate (i + 1)).Perm data := by
  have hlen : i + 1 ≤ data.length := le_of_lt h
  have hi1 : data.findIdx (fun b => decide (b = data[i + 1])) = i + 1 :=
    List.indexOf_getElem hnd _ h
  have hi0 : data.findIdx (fun b => decide (b = data[i])) = i :=
    List.indexOf_getElem hnd _ (Nat.lt_of_succ_lt h)
  have hrot : data.rotate (i + 1) = data.drop (i + 1) ++ data.take (i + 1) :=
    List.rotate_eq_drop_append_take hlen
  have hdropne : data.drop (i + 1) ≠ [] := by
    simp only [ne_eq, List.drop_eq_nil_iff]
    omega
  have hdatane : data ≠ [] := by
    intro hc
    rw [hc] at h
    simp at h
  have htakene : data.take (i + 1) ≠ [] := by
    simp [List.take_eq_nil_iff, hdatane]
  have hhead : (data.rotate (i + 1)).head? = some data[i + 1] := by
    rw [hrot, List.head?_append_of_ne_nil _ hdropne, List.head?_drop]
    exact List.getElem?_eq_getElem h
  have hlast : (data.rotate (i + 1)).getLast? = some data[i] := by
    rw [hrot, List.getLast?_append_of_ne_nil _ htakene,
      List.getLast?_eq_getElem?]
    have hltake : (data.take (i + 1)).length = i + 1 := by
      rw [List.length_take]
      omega
    rw [hltake]
    simp only [Nat.add_sub_cancel]
    rw [List.getElem?_take, if_pos (Nat.lt_succ_self i)]
    exact List.getElem?_eq_getElem (Nat.lt_of_succ_lt h)
  refine ⟨⟨?_, hhead, hlast⟩, ⟨?_, ?_, ?_⟩, List.rotate_perm data (i + 1)⟩
  · unfold Weaver.align_to
    rw [hi1, hi0, if_neg (by omega), hrot]
  · unfold Weaver.align_to
    rw [hi0, hi1, if_pos (by omega), hrot, List.reverse_append]
  · rw [List.head?_reverse, hlast]
  · rw [List.getLast?_reverse, hhead]

/-- C7 counterexample: on the 4-cycle below, aligning to the pair
`(lhs, rhs)` with `lhs` immediately *before* `rhs` yields a sequence that
starts at `lhs` and ends at `rhs` but is not a cyclic rotation of the
input (its cyclic order is reversed); and for the wrap-around adjacent
pair (last, first) the result does not even end at `rhs`. -/
theorem align_to_not_rotation_cex :
    ([(1, 1, 1), (1, 1, 3), (1, 3, 3), (1, 3, 1)] : List Point).Nodup ∧
      Weaver.align_to [(1, 1, 1), (1, 1, 3), (1, 3, 3), (1, 3, 1)]
          (1, 1, 1) (1, 1, 3) =
        [(1, 1, 1), (1, 3, 1), (1, 3, 3), (1, 1, 3)] ∧
      ([(1, 1, 1), (1, 3, 1), (1, 3, 3), (1, 1, 3)] : List Point) ∉
        rotationsOf [(1, 1, 1), (1, 1, 3), (1, 3, 3), (1, 3, 1)] ∧
      (Weaver.align_to [(1, 1, 1), (1, 1, 3), (1, 3, 3), (1, 3, 1)]
          (1, 3, 1) (1, 1, 1)).getLast? = some (1, 3, 3) ∧
      ((1, 3, 3) : Point) ≠ (1, 1, 1) := by
  decide

/-- Witness for C7 at a concrete 4-cycle and position `i = 1`. -/
theorem align_to_rotates_witness :
    (Weaver.align_to [(1, 1, 1), (1, 1, 3), (1, 3, 3), (1, 3, 1)]
          ((1, 3, 3) : Point) ((1, 1, 3) : Point) =
        ([(1, 1, 1), (1, 1, 3), (1, 3, 3), (1, 3, 1)] : List Point).rotate 2 ∧
      (([(1, 1, 1), (1, 1, 3), (1, 3, 3), (1, 3, 1)] : List Point).rotate
            2).head? = some (1, 3, 3) ∧
      (([(1, 1, 1), (1, 1, 3), (1, 3, 3), (1, 3, 1)] : List Point).rotate
            2).getLast? = some (1, 1, 3)) ∧
    (Weaver.align_to [(1, 1, 1), (1, 1, 3), (1, 3, 3), (1, 3, 1)]
          ((1, 1, 3) : Point) ((1, 3, 3) : Point) =
        (([(1, 1, 1), (1, 1, 3), (1, 3, 3), (1, 3, 1)] :
            List Point).rotate 2).reverse ∧
      ((([(1, 1, 1), (1, 1, 3), (1, 3, 3), (1, 3, 1)] : List Point).rotate
            2).reverse).head? = some (1, 1, 3) ∧
      ((([(1, 1, 1), (1, 1, 3), (1, 3, 3), (1, 3, 1)] : List Point).rotate
            2).reverse).getLast? = some (1, 3, 3)) ∧
    (([(1, 1, 1), (1, 1, 3), (1, 3, 3), (1, 3, 1)] : List Point).rotate
        2).Perm [(1, 1, 1), (1, 1, 3), (1, 3, 3), (1, 3, 1)] :=
  align_to_rotates [(1, 1, 1), (1, 1, 3), (1, 3, 3), (1, 3, 1)] 1
    (by decide) (by decide)

/-! ## Claim C6 — bridge intersections in `merge_cycles` -/

/-- C6 (amended): one merge step performs no cardinality check on the two
bridge intersections: it fails (Python `KeyError` on `set().pop()`,
modelled as `none`) exactly when an intersection is empty, and otherwise
silently uses an arbitrary — here the first — element of each
intersection, whatever its size. -/
theorem merge_step_no_cardinality_check (w : Weaver) (t : List Point) :
    (mergeStep w t = none ↔
      weftCandidates w t = [] ∨ threadCandidates w t = []) ∧
    (∀ wb wrest tb trest, weftCandidates w t = wb :: wrest →
      threadCandidates w t = tb :: trest →
      mergeStep w t =
        some
          (Weaver.join { w with data := Weaver.align_to w.data wb.1 wb.2 }
            (Weaver.align_to t tb.2 tb.1),
          Weaver.align_to t tb.2 tb.1)) := by
  constructor
  · cases hw : weftCandidates w t with
    | nil => simp [mergeStep, hw]
    | cons wb wrest =>
      cases ht : threadCandidates w t with
      | nil => simp [mergeStep, hw, ht]
      | cons tb trest => simp [mergeStep, hw, ht]
  · intro wb wrest tb trest hw ht
    simp [mergeStep, hw, ht]

/-- Witness for C6 at a concrete two-cycle loom whose first bridge
intersection has *two* elements: the step still succeeds, using the first
element. -/
theorem merge_step_no_cardinality_check_witness :
    weftCandidates (Weaver.init fixA 5 8) fixB =
        [((1, 1, 1), (3, 1, 1)), ((1, 1, 3), (3, 1, 3))] ∧
      mergeStep (Weaver.init fixA 5 8) fixB =
        some
          (Weaver.join
            { Weaver.init fixA 5 8 with
                data :=
                  Weaver.align_to (Weaver.init fixA 5 8).data
                    ((1, 1, 1) : Point) ((3, 1, 1) : Point) }
            (Weaver.align_to fixB ((3, 3, 1) : Point) ((1, 3, 1) : Point)),
          Weaver.align_to fixB ((3, 3, 1) : Point) ((1, 3, 1) : Point)) :=
  ⟨by decide,
    (merge_step_no_cardinality_check (Weaver.init fixA 5 8) fixB).2
      ((1, 1, 1), (3, 1, 1)) [((1, 1, 3), (3, 1, 3))]
      ((1, 3, 1), (3, 3, 1)) [] (by decide) (by decide)⟩

/-- C6 counterexample, from the real pipeline: in the `weave(5)` run, at
the second merge step the first bridge intersection contains **two**
edges, and the merge neither fails nor checks — it silently proceeds. -/
theorem merge_intersection_not_singleton_cex :
    (weftCandidates weaver5AfterOne (loom5.getD 2 [])).length = 2 ∧
      (mergeStep weaver5AfterOne (loom5.getD 2 [])).isSome = true := by
  constructor
  · decide
  · decide

/-! ## Claim C8 — `merge_cycles` does not empty the loom -/

/-- `align_to` permutes its input (it is a rotation or a reversed
rotation, whatever the arguments). -/
theorem align_to_perm (data : List Point) (lhs rhs : Point) :
    (Weaver.align_to data lhs rhs).Perm data := by
  unfold Weaver.align_to
  by_cases hc :
      data.findIdx (fun b => decide (b = lhs)) <
        data.findIdx (fun b => decide (b = rhs))
  · rw [if_pos hc]
    refine List.Perm.trans
      (List.Perm.append (List.reverse_perm _) (List.reverse_perm _)) ?_
    rw [List.take_append_drop]
  · rw [if_neg hc]
    refine List.Perm.trans List.perm_append_comm ?_
    rw [List.take_append_drop]

/-- A successful merge step leaves the donor thread realigned in place: a
permutation of what it was. -/
theorem mergeStep_snd_perm (w : Weaver) (t : List Point)
    (r : Weaver × List Point) (h : mergeStep w t = some r) : r.2.Perm t := by
  unfold mergeStep at h
  cases hw : weftCandidates w t with
  | nil => rw [hw] at h; exact absurd h (by simp)
  | cons wb wrest =>
    rw [hw] at h
    cases ht : threadCandidates w t with
    | nil => rw [ht] at h; exact absurd h (by simp)
    | cons tb trest =>
      rw [ht] at h
      simp only [Option.some.injEq] at h
      rw [← h]
      exact align_to_perm t tb.2 tb.1

/-- The merge loop appends one realigned donor to the loom for every
thread it consumes, and never removes one. -/
theorem mergeGo_after (ts : List (List Point)) :
    ∀ w acc sol after, mergeGo w acc ts = some (sol, after) →
      ∃ aligned, after = acc ++ aligned ∧ aligned.length = ts.length ∧
        List.Forall₂ (fun a b => a.Perm b) aligned ts := by
  induction ts with
  | nil =>
    intro w acc sol after h
    simp only [mergeGo, Option.some.injEq, Prod.mk.injEq] at h
    exact ⟨[], by simp [← h.2], by simp, List.Forall₂.nil⟩
  | cons t ts ih =>
    intro w acc sol after h
    simp only [mergeGo] at h
    cases hs : mergeStep w t with
    | none => rw [hs] at h; exact absurd h (by simp)
    | some r =>
      rw [hs] at h
      obtain ⟨aligned, ha, hl, hf⟩ := ih r.1 (acc ++ [r.2]) sol after h
      refine ⟨r.2 :: aligned, ?_, by simp [hl], ?_⟩
      · rw [ha, List.append_assoc]
        rfl
      · exact List.Forall₂.cons (mergeStep_snd_perm w t r hs) hf

/-- C8 (amended): `merge_cycles` removes only the seed (the loom's first
thread); every donor cycle is iterated but *left in the loom*, realigned
in place — on success the caller's loom still holds one thread per donor,
each a permutation (rotation or reversed rotation) of what it was. -/
theorem merge_cycles_leaves_donors (loom : List (List Point)) (radius : Int)
    (order : Nat) (sol : List Point) (after : List (List Point))
    (h : merge_cycles loom radius order = some (sol, after)) :
    after.length = loom.length - 1 ∧
      List.Forall₂ (fun a b => a.Perm b) after loom.tail := by
  cases loom with
  | nil => exact absurd h (by simp [merge_cycles])
  | cons seed rest =>
    unfold merge_cycles at h
    obtain ⟨aligned, ha, hl, hf⟩ := mergeGo_after rest _ _ sol after h
    simp only [List.nil_append] at ha
    subst ha
    exact ⟨by simp [hl], hf⟩

/-- Witness for C8 on a singleton loom: the seed is removed, nothing
remains. -/
theorem merge_cycles_leaves_donors_witness :
    ([] : List (List Point)).length = [fixA].length - 1 ∧
      List.Forall₂ (fun a b => a.Perm b) ([] : List (List Point))
        [fixA].tail :=
  merge_cycles_leaves_donors [fixA] 5 8 fixA [] (by decide)

/-- C8 counterexample: with two cycles in the loom, `merge_cycles`
succeeds but the caller's loom still contains a thread afterwards — the
donor was never removed. -/
theorem merge_cycles_loom_not_emptied_cex :
    (merge_cycles [fixA, fixB] 5 8).map (fun r => r.2.length) = some 1 ∧
      (1 : Nat) ≠ 0 := by
  constructor
  · decide
  · decide

/-! ## Claim C4 — `extend_threads` -/

/-- A `matchStep` never discards used indices. -/
theorem matchStep_used_grow (st : List Point × List Nat) (p : Nat × List Point) :
    ∀ j ∈ st.2, j ∈ (matchStep st p).2 := by
  intro j hj
  unfold matchStep
  by_cases hp : p.1 ∈ st.2
  · rw [if_pos hp]
    exact hj
  · rw [if_neg hp]
    cases tryExtend st.1 p.2 with
    | none => exact hj
    | some t' => exact List.mem_cons_of_mem _ hj

/-- A `matchStep` adds at most the current index. -/
theorem matchStep_used_sub (st : List Point × List Nat) (p : Nat × List Point) :
    ∀ j ∈ (matchStep st p).2, j ∈ st.2 ∨ j = p.1 := by
  intro j hj
  unfold matchStep at hj
  by_cases hp : p.1 ∈ st.2
  · rw [if_pos hp] at hj
    exact Or.inl hj
  · rw [if_neg hp] at hj
    cases he : tryExtend st.1 p.2 with
    | none => rw [he] at hj; exact Or.inl hj
    | some t' =>
      rw [he] at hj
      rcases List.mem_cons.mp hj with h | h
      · exact Or.inr h
      · exact Or.inl h

/-- Along the inner fold, the used set only grows. -/
theorem matchFold_used_mono (l : List (Nat × List Point)) :
    ∀ st : List Point × List Nat, ∀ j ∈ st.2, j ∈ (l.foldl matchStep st).2 := by
  induction l with
  | nil => intro st j hj; exact hj
  | cons p l ih =>
    intro st j hj
    exact ih (matchStep st p) j (matchStep_used_grow st p j hj)

/-- Along the inner fold, used indices come from the initial set or from
the scanned list. -/
theorem matchFold_used_sub (l : List (Nat × List Point)) :
    ∀ st : List Point × List Nat, ∀ j ∈ (l.foldl matchStep st).2,
      j ∈ st.2 ∨ j ∈ l.map Prod.fst := by
  induction l with
  | nil => intro st j hj; exact Or.inl hj
  | cons p l ih =>
    intro st j hj
    rcases ih (matchStep st p) j hj with h | h
    · rcases matchStep_used_sub st p j h with h' | h'
      · exact Or.inl h'
      · exact Or.inr (by simp [h'])
    · exact Or.inr (List.mem_cons_of_mem _ h)

/-- The inner loop of `extend_threads` (a fold with a used-index set)
computes the same thread and, through the used set, the same remaining
fragments, as one spec-side `threadPass` over the unconsumed fragments. -/
theorem matchFold_eq (l : List (Nat × List Point)) :
    ∀ (thread : List Point) (used : List Nat), (l.map Prod.fst).Nodup →
      (l.foldl matchStep (thread, used)).1 =
          (threadPass thread ((l.filter (notUsed used)).map Prod.snd)).1 ∧
        (l.filter (notUsed (l.foldl matchStep (thread, used)).2)).map
            Prod.snd =
          (threadPass thread ((l.filter (notUsed used)).map Prod.snd)).2 := by
  induction l with
  | nil =>
    intro thread used _
    exact ⟨rfl, rfl⟩
  | cons p l ih =>
    rcases p with ⟨i, s⟩
    intro thread used hnd
    have hnd2 : (i :: l.map Prod.fst).Nodup := by simpa using hnd
    have hni : i ∉ l.map Prod.fst := (List.nodup_cons.mp hnd2).1
    have hnd' : (l.map Prod.fst).Nodup := (List.nodup_cons.mp hnd2).2
    by_cases hi : i ∈ used
    · have hstep : matchStep (thread, used) (i, s) = (thread, used) := by
        unfold matchStep
        rw [if_pos hi]
      have hcond : notUsed used (i, s) = false := by simp [notUsed, hi]
      have hfilter :
          ((i, s) :: l).filter (notUsed used) = l.filter (notUsed used) := by
        rw [List.filter_cons, hcond]
        simp
      have hfold :
          (((i, s) :: l).foldl matchStep (thread, used)) =
            l.foldl matchStep (thread, used) := by
        rw [List.foldl_cons, hstep]
      obtain ⟨ih1, ih2⟩ := ih thread used hnd'
      refine ⟨by rw [hfold, hfilter]; exact ih1, ?_⟩
      rw [hfold, hfilter, List.filter_cons]
      have hiR : i ∈ (l.foldl matchStep (thread, used)).2 :=
        matchFold_used_mono l (thread, used) i hi
      have hcondR : notUsed (l.foldl matchStep (thread, used)).2 (i, s) =
          false := by simp [notUsed, hiR]
      rw [hcondR]
      simp only [Bool.false_eq_true, if_false]
      exact ih2
    · have hcond : notUsed used (i, s) = true := by simp [notUsed, hi]
      have hfilter :
          ((i, s) :: l).filter (notUsed used) =
            (i, s) :: l.filter (notUsed used) := by
        rw [List.filter_cons, hcond]
        simp
      cases he : tryExtend thread s with
      | some t' =>
        have hstep : matchStep (thread, used) (i, s) = (t', i :: used) := by
          unfold matchStep
          rw [if_neg hi]
          simp [he]
        have hfold :
            (((i, s) :: l).foldl matchStep (thread, used)) =
              l.foldl matchStep (t', i :: used) := by
          rw [List.foldl_cons, hstep]
        have hfilter2 :
            l.filter (notUsed (i :: used)) = l.filter (notUsed used) := by
          apply List.filter_congr
          intro p hp
          have hpi : p.1 ≠ i := by
            intro hc
            exact hni (by rw [← hc]; exact List.mem_map_of_mem Prod.fst hp)
          simp [notUsed, List.mem_cons, hpi]
        have hpass :
            threadPass thread
                (((i, s) :: l.filter (notUsed used)).map Prod.snd) =
              threadPass t' ((l.filter (notUsed used)).map Prod.snd) := by
          simp [threadPass, he]
        obtain ⟨ih1, ih2⟩ := ih t' (i :: used) hnd'
        rw [hfilter2] at ih1 ih2
        constructor
        · rw [hfold, hfilter, hpass]
          exact ih1
        · rw [hfold, hfilter, hpass, List.filter_cons]
          have hiR : i ∈ (l.foldl matchStep (t', i :: used)).2 :=
            matchFold_used_mono l (t', i :: used) i (by simp)
          have hcondR : notUsed (l.foldl matchStep (t', i :: used)).2 (i, s) =
              false := by simp [notUsed, hiR]
          rw [hcondR]
          simp only [Bool.false_eq_true, if_false]
          exact ih2
      | none =>
        have hstep : matchStep (thread, used) (i, s) = (thread, used) := by
          unfold matchStep
          rw [if_neg hi]
          simp [he]
        have hfold :
            (((i, s) :: l).foldl matchStep (thread, used)) =
              l.foldl matchStep (thread, used) := by
          rw [List.foldl_cons, hstep]
        have hpass :
            threadPass thread
                (((i, s) :: l.filter (notUsed used)).map Prod.snd) =
              ((threadPass thread
                  ((l.filter (notUsed used)).map Prod.snd)).1,
                s ::
                  (threadPass thread
                    ((l.filter (notUsed used)).map Prod.snd)).2) := by
          simp [threadPass, he]
        obtain ⟨ih1, ih2⟩ := ih thread used hnd'
        constructor
        · rw [hfold, hfilter, hpass]
          exact ih1
        · rw [hfold, hfilter, hpass, List.filter_cons]
          have hiR : i ∉ (l.foldl matchStep (thread, used)).2 := by
            intro hc
            rcases matchFold_used_sub l (thread, used) i hc with h | h
            · exact hi h
            · exact hni h
          have hcondR : notUsed (l.foldl matchStep (thread, used)).2 (i, s) =
              true := by simp [notUsed, hiR]
          rw [hcondR]
          simp only [if_true, List.map_cons, List.cons.injEq,
            true_and, and_true, eq_self_iff_true]
          exact ih2

/-- The outer fold of `extend_threads` matches the spec-side model fold,
thread by thread. -/
theorem extendFold_eq (subtours : List (List Point))
    (hnd : (subtours.enum.map Prod.fst).Nodup) :
    ∀ (loom : List (List Point)) (acc : List (List Point)) (used : List Nat),
      ((loom.foldl
            (fun acc' thread =>
              let r := subtours.enum.foldl matchStep (thread, acc'.2)
              (acc'.1 ++ [r.1], r.2))
            (acc, used)).1 =
          (loom.foldl
              (fun acc' t =>
                let s := threadPass t acc'.2
                (acc'.1 ++ [s.1], s.2))
              (acc, (subtours.enum.filter (notUsed used)).map Prod.snd)).1) ∧
      ((subtours.enum.filter
            (notUsed
              (loom.foldl
                  (fun acc' thread =>
                    let r := subtours.enum.foldl matchStep (thread, acc'.2)
                    (acc'.1 ++ [r.1], r.2))
                  (acc, used)).2)).map Prod.snd =
        (loom.foldl
            (fun acc' t =>
              let s := threadPass t acc'.2
              (acc'.1 ++ [s.1], s.2))
            (acc, (subtours.enum.filter (notUsed used)).map Prod.snd)).2) := by
  intro loom
  induction loom with
  | nil => intro acc used; exact ⟨rfl, rfl⟩
  | cons t loom' ih =>
    intro acc used
    obtain ⟨e1, e2⟩ := matchFold_eq subtours.enum t used hnd
    simp only [List.foldl_cons]
    rw [← e1, ← e2]
    exact ih (acc ++ [(subtours.enum.foldl matchStep (t, used)).1])
      (subtours.enum.foldl matchStep (t, used)).2

/-- `matchStep` keeps the used-index set duplicate-free. -/
theorem matchStep_nodup (st : List Point × List Nat) (p : Nat × List Point)
    (h : st.2.Nodup) : (matchStep st p).2.Nodup := by
  unfold matchStep
  by_cases hp : p.1 ∈ st.2
  · rw [if_pos hp]
    exact h
  · rw [if_neg hp]
    cases tryExtend st.1 p.2 with
    | none => exact h
    | some t' => exact List.nodup_cons.mpr ⟨hp, h⟩

/-- The inner fold keeps the used-index set duplicate-free. -/
theorem matchFold_nodup (l : List (Nat × List Point)) :
    ∀ st : List Point × List Nat, st.2.Nodup →
      ((l.foldl matchStep st).2).Nodup := by
  induction l with
  | nil => intro st h; exact h
  | cons p l ih => intro st h; exact ih (matchStep st p) (matchStep_nodup st p h)

/-- The whole of `extend_threads` keeps the used-index set
duplicate-free. -/
theorem extendFold_used_nodup (subtours : List (List Point)) :
    ∀ (loom : List (List Point)) (acc : List (List Point)) (used : List Nat),
      used.Nodup →
      ((loom.foldl
          (fun acc' thread =>
            let r := subtours.enum.foldl matchStep (thread, acc'.2)
            (acc'.1 ++ [r.1], r.2))
          (acc, used)).2).Nodup := by
  intro loom
  induction loom with
  | nil => intro acc used h; exact h
  | cons t loom' ih =>
    intro acc used h
    simp only [List.foldl_cons]
    exact ih _ _ (matchFold_nodup subtours.enum (t, used) h)

/-- C4 (amended): `extend_threads` equals the spec-side model in which
each thread, in loom order — whether or not it was already extended in
this pass — makes one left-to-right pass over the not-yet-consumed
fragments, prepending (rest reversed) on a head match and appending on a
tail match, with matched fragments consumed (each fragment by at most one
thread: the used-index set stays duplicate-free) and the leftovers
seeding brand-new threads in order. -/
theorem extend_threads_model_correct (loom subtours : List (List Point)) :
    extend_threads loom subtours = extendThreadsModel loom subtours ∧
      (extendThreadsCore loom subtours).2.Nodup := by
  have hnd : (subtours.enum.map Prod.fst).Nodup := by
    rw [List.enum_map_fst]
    exact List.nodup_range _
  obtain ⟨e1, e2⟩ := extendFold_eq subtours hnd loom [] []
  have hinit : (subtours.enum.filter (notUsed [])).map Prod.snd = subtours := by
    have hf : subtours.enum.filter (notUsed []) = subtours.enum := by
      apply List.filter_eq_self.mpr
      intro p _
      simp [notUsed]
    rw [hf, List.enum_map_snd]
  constructor
  · rw [hinit] at e1 e2
    show (loom.foldl
          (fun acc' thread =>
            let r := subtours.enum.foldl matchStep (thread, acc'.2)
            (acc'.1 ++ [r.1], r.2))
          ([], [])).1 ++
        ((subtours.enum.filter
            (notUsed
              (loom.foldl
                  (fun acc' thread =>
                    let r := subtours.enum.foldl matchStep (thread, acc'.2)
                    (acc'.1 ++ [r.1], r.2))
                  ([], [])).2)).map Prod.snd) =
      (loom.foldl
          (fun acc' t =>
            let s := threadPass t acc'.2
            (acc'.1 ++ [s.1], s.2))
          ([], subtours)).1 ++
        (loom.foldl
            (fun acc' t =>
              let s := threadPass t acc'.2
              (acc'.1 ++ [s.1], s.2))
            ([], subtours)).2
    rw [e1, e2]
  · exact extendFold_used_nodup subtours loom [] [] List.nodup_nil

/-- C4 counterexample: the fragment `[(1,1,1), (1,1,3)]` first-point
matches both the head of the already-used first thread and the tail of
the never-used second thread; the claim's tie-break sends it to the
second thread, but the code extends the first thread again and leaves the
second untouched. -/
theorem extend_threads_tiebreak_cex :
    extend_threads [[(1, 1, 1), (3, 1, 1)], [(1, 3, 1), (1, 1, 1)]]
        [[(3, 1, 1), (3, 3, 1)], [(1, 1, 1), (1, 1, 3)]] =
      [[(1, 1, 3), (1, 1, 1), (3, 1, 1), (3, 3, 1)], [(1, 3, 1), (1, 1, 1)]] ∧
    extend_threads [[(1, 1, 1), (3, 1, 1)], [(1, 3, 1), (1, 1, 1)]]
        [[(3, 1, 1), (3, 3, 1)], [(1, 1, 1), (1, 1, 3)]] ≠
      [[(1, 1, 1), (3, 1, 1), (3, 3, 1)], [(1, 3, 1), (1, 1, 1), (1, 1, 3)]] := by
  decide

/-! ## Claims C3 and C10 — `chop` -/

theorem tourSlice_take (l : List Point) (a b m : Nat) (h : b ≤ m) :
    tourSlice (l.take m) a b = tourSlice l a b := by
  unfold tourSlice
  rw [List.drop_take, List.take_take]
  congr 1
  omega

theorem tourSlice_length_eq (l : List Point) (a : Nat) :
    tourSlice l a l.length = l.drop a := by
  unfold tourSlice
  apply List.take_of_length_le
  rw [List.length_drop]

theorem tourSlice_zero_length (l : List Point) : tourSlice l 0 l.length = l := by
  rw [tourSlice_length_eq, List.drop_zero]

theorem tourSlice_ne_nil (l : List Point) (a b : Nat) (ha : a < l.length)
    (hab : a < b) : tourSlice l a b ≠ [] := by
  unfold tourSlice
  intro hc
  rcases List.take_eq_nil_iff.mp hc with h | h
  · omega
  · rw [List.drop_eq_nil_iff] at h
    omega

theorem headD_take (l : List Point) (d : Point) (m : Nat) (hm : m ≠ 0) :
    (l.take m).headD d = l.headD d := by
  cases l with
  | nil => simp
  | cons a t =>
    cases m with
    | zero => exact absurd rfl hm
    | succ m' => rfl

theorem headD_append_ne_nil (l l' : List Nat) (d : Nat) (h : l ≠ []) :
    (l ++ l').headD d = l.headD d := by
  cases l with
  | nil => exact absurd rfl h
  | cons a t => rfl

theorem headD_irrel (l : List Nat) (d d' : Nat) (h : l ≠ []) :
    l.headD d = l.headD d' := by
  cases l with
  | nil => exact absurd rfl h
  | cons a t => rfl

theorem adjPairs_concat (l : List Nat) (a : Nat) (h : l ≠ []) :
    adjPairs (l ++ [a]) = adjPairs l ++ [(l.getLastD 0, a)] := by
  induction l with
  | nil => exact absurd rfl h
  | cons x t ih =>
    cases t with
    | nil => rfl
    | cons y t' =>
      have step : adjPairs ((x :: y :: t') ++ [a]) =
          (x, y) :: adjPairs ((y :: t') ++ [a]) := rfl
      rw [step, ih (by simp)]
      rfl

theorem adjPairs_lt (l : List Nat) (hp : List.Pairwise (· < ·) l) :
    ∀ p ∈ adjPairs l, p.1 < p.2 ∧ p.1 ∈ l ∧ p.2 ∈ l := by
  induction l with
  | nil => intro p hp'; simp [adjPairs] at hp'
  | cons x t ih =>
    cases t with
    | nil => intro p hp'; simp [adjPairs] at hp'
    | cons y t' =>
      intro p hp'
      have harm : adjPairs (x :: y :: t') = (x, y) :: adjPairs (y :: t') := rfl
      rw [harm] at hp'
      rcases List.mem_cons.mp hp' with h | h
      · subst h
        exact ⟨(List.pairwise_cons.mp hp).1 y (by simp), by simp, by simp⟩
      · have ih' := ih (List.pairwise_cons.mp hp).2 p h
        exact ⟨ih'.1, List.mem_cons_of_mem _ ih'.2.1,
          List.mem_cons_of_mem _ ih'.2.2⟩

theorem pinIdcsFrom_bounds (pins : List Point) :
    ∀ (l : List Point) (i : Nat), ∀ j ∈ pinIdcsFrom pins i l,
      i ≤ j ∧ j < i + l.length := by
  intro l
  induction l with
  | nil => intro i j hj; simp [pinIdcsFrom] at hj
  | cons p ps ih =>
    intro i j hj
    unfold pinIdcsFrom at hj
    by_cases hp : p ∈ pins
    · rw [if_pos hp] at hj
      rcases List.mem_cons.mp hj with h | h
      · subst h
        simp
      · have hr := ih (i + 1) j h
        simp only [List.length_cons]
        omega
    · rw [if_neg hp] at hj
      have hr := ih (i + 1) j hj
      simp only [List.length_cons]
      omega

theorem pinIdcsFrom_pairwise (pins : List Point) :
    ∀ (l : List Point) (i : Nat),
      List.Pairwise (· < ·) (pinIdcsFrom pins i l) := by
  intro l
  induction l with
  | nil => intro i; simp [pinIdcsFrom]
  | cons p ps ih =>
    intro i
    unfold pinIdcsFrom
    by_cases hp : p ∈ pins
    · rw [if_pos hp]
      refine List.pairwise_cons.mpr ⟨?_, ih (i + 1)⟩
      intro j hj
      have := (pinIdcsFrom_bounds pins ps (i + 1) j hj).1
      omega
    · rw [if_neg hp]
      exact ih (i + 1)

theorem pinIdcs_lt (tour pins : List Point) :
    ∀ j ∈ pinIdcs tour pins, j < tour.length := by
  intro j hj
  have := (pinIdcsFrom_bounds pins tour 0 j hj).2
  omega

theorem pinIdcs_pairwise (tour pins : List Point) :
    List.Pairwise (· < ·) (pinIdcs tour pins) :=
  pinIdcsFrom_pairwise pins tour 0

theorem pinIdcs_head_zero (tour pins : List Point) (j1 : Nat) (rest : List Nat)
    (h : pinIdcs tour pins = j1 :: rest) :
    tour ≠ [] ∧ (j1 = 0 ↔ tour.headD (0, 0, 0) ∈ pins) := by
  cases tour with
  | nil => simp [pinIdcs, pinIdcsFrom] at h
  | cons t0 ts =>
    refine ⟨by simp, ?_⟩
    unfold pinIdcs pinIdcsFrom at h
    by_cases hp : t0 ∈ pins
    · rw [if_pos hp] at h
      have hj : j1 = 0 := by
        have := h.symm
        injection this with h1 _
      simp [hj, hp]
    · rw [if_neg hp] at h
      have hj : 1 ≤ j1 := by
        have hmem : j1 ∈ pinIdcsFrom pins 1 ts := by
          rw [h]
          exact List.mem_cons_self _ _
        exact (pinIdcsFrom_bounds pins ts 1 j1 hmem).1
      simp only [List.headD_cons]
      constructor
      · intro hc
        omega
      · intro hc
        exact absurd hc hp

theorem getLastD_concat' (l : List Nat) (a d : Nat) :
    (l ++ [a]).getLastD d = a := by
  induction l with
  | nil => rfl
  | cons x t ih =>
    cases t with
    | nil => rfl
    | cons y t' =>
      have h1 : ((x :: y :: t') ++ [a]).getLastD d =
          ((y :: t') ++ [a]).getLastD d := rfl
      rw [h1]
      exact ih

theorem extHeadD_le (rs : List Nat) (jk L : Nat)
    (hpr : List.Pairwise (· < ·) (rs ++ [jk])) :
    ((rs ++ [jk]) ++ [L]).headD L = (rs ++ [jk]).headD jk ∧
      (rs ++ [jk]).headD jk ≤ jk := by
  constructor
  · rw [headD_append_ne_nil _ _ _ (by simp)]
    exact headD_irrel _ _ _ (by simp)
  · cases rs with
    | nil => simp
    | cons r rs' =>
      simp only [List.cons_append, List.headD_cons]
      have := (List.pairwise_append.mp hpr).2.2 r (by simp) jk (by simp)
      omega

theorem specTourAux_step (tour : List Point) (j1 jk : Nat) (rs : List Nat)
    (hjk : jk ≤ tour.length) (hpr : List.Pairwise (· < ·) (rs ++ [jk])) :
    specTourAux tour j1 (rs ++ [jk]) = specTourAux (tour.take jk) j1 rs := by
  obtain ⟨hhd, hle⟩ := extHeadD_le rs jk tour.length hpr
  unfold specTourAux
  by_cases hz : j1 = 0
  · rw [if_pos hz, if_pos hz]
  · rw [if_neg hz, if_neg hz]
    have hlen : (tour.take jk).length = jk := by
      rw [List.length_take]
      omega
    rw [hlen, List.take_take]
    have hassoc : (rs ++ [jk]) ++ [tour.length] = rs ++ [jk] ++ [tour.length] := by
      simp
    rw [← hassoc, hhd]
    congr 1
    omega

theorem specFragsAux_step (tour : List Point) (j1 jk : Nat) (rs : List Nat)
    (hjk : jk ≤ tour.length) (hpr : List.Pairwise (· < ·) (rs ++ [jk]))
    (hj1 : j1 < jk) :
    specFragsAux tour j1 (rs ++ [jk]) =
      tour.drop jk :: specFragsAux (tour.take jk) j1 rs := by
  obtain ⟨hhd, hle⟩ := extHeadD_le rs jk tour.length hpr
  have hlen : (tour.take jk).length = jk := by
    rw [List.length_take]
    omega
  have hassoc : (rs ++ [jk]) ++ [tour.length] = rs ++ [jk] ++ [tour.length] := by
    simp
  have hpairs : adjPairs ((rs ++ [jk]) ++ [tour.length]) =
      adjPairs (rs ++ [jk]) ++ [(jk, tour.length)] := by
    rw [adjPairs_concat _ _ (by simp), getLastD_concat']
  have hmapc :
      (adjPairs (rs ++ [jk])).map (fun p => tourSlice tour p.1 p.2) =
        (adjPairs (rs ++ [jk])).map
          (fun p => tourSlice (tour.take jk) p.1 p.2) := by
    apply List.map_congr_left
    intro p hp
    obtain ⟨hlt, _, hmem2⟩ := adjPairs_lt _ hpr p hp
    have hp2 : p.2 ≤ jk := by
      rcases List.mem_append.mp hmem2 with h | h
      · have := (List.pairwise_append.mp hpr).2.2 p.2 h jk (by simp)
        omega
      · simp at h
        omega
    exact (tourSlice_take tour p.1 p.2 jk hp2).symm
  unfold specFragsAux
  rw [hlen, ← hassoc, hpairs, hhd, List.map_append, List.reverse_append,
    hmapc]
  have hslice : tourSlice tour jk tour.length = tour.drop jk :=
    tourSlice_length_eq tour jk
  by_cases hz : j1 = 0
  · rw [if_pos hz, if_pos hz]
    simp only [List.map_cons, List.map_nil, List.reverse_cons,
      List.reverse_nil, List.nil_append, hslice]
    rw [tourSlice_take tour 0 _ jk hle]
    simp
  · rw [if_neg hz, if_neg hz]
    rw [List.take_take]
    have hmin : min (j1 + 1) jk = j1 + 1 := by omega
    rw [hmin]
    rw [tourSlice_take tour (j1 + 1) _ jk hle]
    simp [hslice]

theorem chopGo_cons (pins : List Point) (tour : List Point)
    (acc : List (List Point)) (j : Nat) (js : List Nat) (h : js ≠ []) :
    chopGo pins tour acc (j :: js) =
      chopGo pins (tour.take j) (acc ++ [tour.drop j]) js := by
  cases js with
  | nil => exact absurd rfl h
  | cons j' js' => rfl

/-- The loop of `chop`, run on ascending pin positions `j1 :: rest`
(processed in reverse), produces exactly the specified fragments and
leaves exactly the specified truncated tour. -/
theorem chopGo_spec :
    ∀ (rest : List Nat) (j1 : Nat) (tour : List Point)
      (acc : List (List Point)) (pins : List Point),
      List.Pairwise (· < ·) (j1 :: rest) →
      (∀ j ∈ j1 :: rest, j < tour.length) →
      (j1 = 0 ↔ tour.headD (0, 0, 0) ∈ pins) →
      chopGo pins tour acc ((j1 :: rest).reverse) =
        (acc ++ specFragsAux tour j1 rest, specTourAux tour j1 rest) := by
  intro rest
  induction rest using List.reverseRecOn with
  | nil =>
    intro j1 tour acc pins hpair hbnd hhead
    show chopGo pins tour acc [j1] = _
    have hj1 : j1 < tour.length := hbnd j1 (by simp)
    unfold chopGo
    by_cases h0 : tour.headD (0, 0, 0) ∈ pins
    · rw [if_pos h0]
      have hz : j1 = 0 := hhead.mpr h0
      subst hz
      unfold specFragsAux specTourAux
      simp only [if_pos rfl, List.nil_append]
      have h1 : adjPairs [tour.length] = [] := rfl
      rw [h1]
      simp only [List.map_nil, List.reverse_nil, List.nil_append,
        List.headD_cons]
      rw [tourSlice_zero_length]
      simp
    · rw [if_neg h0]
      have hz : j1 ≠ 0 := fun hc => h0 (hhead.mp hc)
      unfold specFragsAux specTourAux
      rw [if_neg hz, if_neg hz]
      have h1 : adjPairs ([] ++ [tour.length]) = [] := rfl
      rw [h1]
      simp only [List.map_nil, List.reverse_nil, List.nil_append,
        List.headD_cons]
      rw [tourSlice_length_eq]
      simp [List.take_length]
  | append_singleton rs jk ih =>
    intro j1 tour acc pins hpair hbnd hhead
    have hrev : (j1 :: (rs ++ [jk])).reverse = jk :: (j1 :: rs).reverse := by
      simp
    rw [hrev, chopGo_cons pins tour acc jk ((j1 :: rs).reverse) (by simp)]
    have hjk : jk < tour.length := hbnd jk (by simp)
    have hp2 : List.Pairwise (· < ·) ((j1 :: rs) ++ [jk]) := by simpa using hpair
    have hlt : ∀ x ∈ j1 :: rs, x < jk := by
      intro x hx
      exact (List.pairwise_append.mp hp2).2.2 x hx jk (by simp)
    have hlen : (tour.take jk).length = jk := by
      rw [List.length_take]
      omega
    have hpair' : List.Pairwise (· < ·) (j1 :: rs) :=
      (List.pairwise_append.mp hp2).1
    have hbnd' : ∀ j ∈ j1 :: rs, j < (tour.take jk).length := by
      rw [hlen]
      exact hlt
    have hjkne : jk ≠ 0 := by
      have := hlt j1 (by simp)
      omega
    have hhead' : (j1 = 0 ↔ (tour.take jk).headD (0, 0, 0) ∈ pins) := by
      rw [headD_take tour _ jk hjkne]
      exact hhead
    rw [ih j1 (tour.take jk) (acc ++ [tour.drop jk]) pins hpair' hbnd' hhead']
    have hprs : List.Pairwise (· < ·) (rs ++ [jk]) :=
      List.Pairwise.sublist (by simp) hpair
    rw [specFragsAux_step tour j1 jk rs (le_of_lt hjk) hprs (hlt j1 (by simp)),
      specTourAux_step tour j1 jk rs (le_of_lt hjk) hprs]
    simp

theorem headD_mem (l : List Nat) (d : Nat) (h : l ≠ []) : l.headD d ∈ l := by
  cases l with
  | nil => exact absurd rfl h
  | cons a t => simp

/-- `chop` computes exactly the specified fragments and final tour. -/
theorem chop_spec (tour pins : List Point) :
    chop tour pins = (chopSpecFrags tour pins, chopFinalTour tour pins) := by
  unfold chop chopSpecFrags chopFinalTour
  by_cases hp : pins = []
  · rw [if_pos hp, if_pos hp, if_pos hp]
  · rw [if_neg hp, if_neg hp, if_neg hp]
    cases hidx : pinIdcs tour pins with
    | nil => simp only [hidx, List.reverse_nil, chopGo]
    | cons j1 rest =>
      simp only [hidx]
      obtain ⟨htne, hhead⟩ := pinIdcs_head_zero tour pins j1 rest hidx
      have hpair : List.Pairwise (· < ·) (j1 :: rest) := by
        rw [← hidx]
        exact pinIdcs_pairwise tour pins
      have hbnd : ∀ j ∈ j1 :: rest, j < tour.length := by
        intro j hj
        exact pinIdcs_lt tour pins j (by rw [hidx]; exact hj)
      rw [chopGo_spec rest j1 tour [] pins hpair hbnd hhead]
      simp

/-- No fragment produced for a genuine pin-position list is empty. -/
theorem specFragsAux_no_nil (tour : List Point) (j1 : Nat) (rest : List Nat)
    (hpair : List.Pairwise (· < ·) (j1 :: rest))
    (hbnd : ∀ j ∈ j1 :: rest, j < tour.length) :
    [] ∉ specFragsAux tour j1 rest := by
  intro hc
  have hj1L : j1 < tour.length := hbnd j1 (by simp)
  have hrest_gt : ∀ x ∈ rest, j1 < x := (List.pairwise_cons.mp hpair).1
  have hprL : List.Pairwise (· < ·) (rest ++ [tour.length]) := by
    rw [List.pairwise_append]
    refine ⟨(List.pairwise_cons.mp hpair).2, by simp, ?_⟩
    intro a ha b hb
    simp only [List.mem_singleton] at hb
    subst hb
    exact hbnd a (List.mem_cons_of_mem _ ha)
  unfold specFragsAux at hc
  rcases List.mem_append.mp hc with h | h
  · rw [List.mem_reverse] at h
    rcases List.mem_map.mp h with ⟨p, hp, hpe⟩
    obtain ⟨hlt, _, hm2⟩ := adjPairs_lt _ hprL p hp
    have hp1L : p.1 < tour.length := by
      rcases List.mem_append.mp hm2 with h2 | h2
      · have := hbnd p.2 (List.mem_cons_of_mem _ h2)
        omega
      · simp only [List.mem_singleton] at h2
        omega
    exact tourSlice_ne_nil tour p.1 p.2 hp1L hlt hpe
  · by_cases hz : j1 = 0
    · rw [if_pos hz] at h
      simp only [List.mem_singleton] at h
      have hhd : (rest ++ [tour.length]).headD tour.length ∈
          rest ++ [tour.length] := headD_mem _ _ (by simp)
      have hpos : 0 < (rest ++ [tour.length]).headD tour.length := by
        rcases List.mem_append.mp hhd with h2 | h2
        · have := hrest_gt _ h2
          omega
        · simp only [List.mem_singleton] at h2
          omega
      exact tourSlice_ne_nil tour 0 _ (by omega) hpos h.symm
    · rw [if_neg hz] at h
      rcases List.mem_append.mp h with h2 | h2
      · simp only [List.mem_singleton] at h2
        have : tour.take (j1 + 1) = [] := by
          have := h2.symm
          rwa [List.reverse_eq_nil_iff] at this
        rcases List.take_eq_nil_iff.mp this with h3 | h3
        · omega
        · rw [h3] at hj1L
          simp at hj1L
      · by_cases hsl : tourSlice tour (j1 + 1)
            ((rest ++ [tour.length]).headD tour.length) = []
        · rw [if_pos hsl] at h2
          simp at h2
        · rw [if_neg hsl] at h2
          simp only [List.mem_singleton] at h2
          exact hsl h2.symm

theorem pinIdcs_nil_pins (tour : List Point) : pinIdcs tour [] = [] := by
  unfold pinIdcs
  generalize 0 = i
  induction tour generalizing i with
  | nil => rfl
  | cons p ps ih =>
    unfold pinIdcsFrom
    rw [if_neg (by simp)]
    exact ih _

theorem firstPinB_of_cons (tour pins : List Point) (j1 : Nat) (rest : List Nat)
    (h : pinIdcs tour pins = j1 :: rest) :
    firstPinB tour pins = true ↔ j1 = 0 := by
  obtain ⟨htne, hhead⟩ := pinIdcs_head_zero tour pins j1 rest h
  cases tour with
  | nil => exact absurd rfl htne
  | cons t0 ts =>
    simp only [List.headD_cons] at hhead
    simp only [firstPinB, decide_eq_true_eq]
    exact hhead.symm

theorem firstPinB_of_nil (tour pins : List Point)
    (h : pinIdcs tour pins = []) : firstPinB tour pins = false := by
  cases tour with
  | nil => rfl
  | cons t0 ts =>
    unfold pinIdcs pinIdcsFrom at h
    by_cases hp : t0 ∈ pins
    · rw [if_pos hp] at h
      exact absurd h (by simp)
    · simp [firstPinB, hp]

/-- C3 (amended): for every *nonempty* tour: with an empty pin set, `chop`
returns the whole tour reversed as a single fragment; in general its
fragments are exactly the specified cuts of the tour at the pinned
positions — the inter-pin slices in reverse position order, each starting
at a pinned point, with the case where the tour's first point is *not* a
pin handled specially by one extra leading fragment (the reversed
unpinned prefix up to and including the first pin, followed by the
next slice when nonempty) — and no returned fragment is empty. -/
theorem chop_correct (tour pins : List Point) (hne : tour ≠ []) :
    (pins = [] → (chop tour pins).1 = [tour.reverse]) ∧
      (chop tour pins).1 = chopSpecFrags tour pins ∧
      [] ∉ (chop tour pins).1 := by
  refine ⟨?_, ?_, ?_⟩
  · intro hp
    rw [chop_spec]
    show chopSpecFrags tour pins = _
    unfold chopSpecFrags
    rw [if_pos hp]
  · rw [chop_spec]
  · rw [chop_spec]
    show [] ∉ chopSpecFrags tour pins
    unfold chopSpecFrags
    by_cases hp : pins = []
    · rw [if_pos hp]
      simp only [List.mem_singleton]
      intro hc
      apply hne
      have hc' := hc.symm
      rwa [List.reverse_eq_nil_iff] at hc'
    · rw [if_neg hp]
      cases hidx : pinIdcs tour pins with
      | nil => simp
      | cons j1 rest =>
        apply specFragsAux_no_nil
        · rw [← hidx]
          exact pinIdcs_pairwise tour pins
        · intro j hj
          exact pinIdcs_lt tour pins j (by rw [hidx]; exact hj)

/-- Witness for C3 at a three-point tour with one interior pin. -/
theorem chop_correct_witness :
    (([(3, 1, 1)] : List Point) = [] →
        (chop [(1, 1, 1), (3, 1, 1), (3, 3, 1)] [(3, 1, 1)]).1 =
          [([(1, 1, 1), (3, 1, 1), (3, 3, 1)] : List Point).reverse]) ∧
      (chop [(1, 1, 1), (3, 1, 1), (3, 3, 1)] [(3, 1, 1)]).1 =
        chopSpecFrags [(1, 1, 1), (3, 1, 1), (3, 3, 1)] [(3, 1, 1)] ∧
      [] ∉ (chop [(1, 1, 1), (3, 1, 1), (3, 3, 1)] [(3, 1, 1)]).1 :=
  chop_correct _ _ (by decide)

/-- C3 counterexample: on the empty tour with empty pins, `chop` returns
the empty fragment `[[]]`; and when the tour's *first* point is the
(unique) pin, it returns a single fragment — one fragment for one pin, no
extra leading fragment (the extra fragment appears when the first point
is *not* a pin). -/
theorem chop_empty_fragment_cex :
    (chop ([] : List Point) []).1 = [[]] ∧
      [] ∈ (chop ([] : List Point) []).1 ∧
      (pinIdcs [(1, 1, 1), (3, 1, 1), (3, 3, 1)] [(1, 1, 1)]).length = 1 ∧
      (chop [(1, 1, 1), (3, 1, 1), (3, 3, 1)] [(1, 1, 1)]).1 =
        [[(1, 1, 1), (3, 1, 1), (3, 3, 1)]] ∧
      ((chop [(1, 1, 1), (3, 1, 1), (3, 3, 1)] [(1, 1, 1)]).1).length = 1 := by
  decide

/-- C10: `chop` destructively truncates the caller's tour: the tour is
emptied exactly when its first point is a pin; it gets strictly shorter
whenever at least two of its positions are pinned or its first point is a
pin; and it is left unmodified precisely when no position is pinned, or
exactly one position past the first point is pinned. -/
theorem chop_mutates_tour (tour pins : List Point) :
    (firstPinB tour pins = true → (chop tour pins).2 = []) ∧
      ((2 ≤ (pinIdcs tour pins).length ∨ firstPinB tour pins = true) →
        (chop tour pins).2.length < tour.length) ∧
      ((chop tour pins).2 = tour ↔
        ((pinIdcs tour pins).length = 0 ∨
          ((pinIdcs tour pins).length = 1 ∧ firstPinB tour pins = false))) := by
  have h2 : (chop tour pins).2 = chopFinalTour tour pins := by
    rw [chop_spec]
  rw [h2]
  by_cases hp : pins = []
  · have hft : chopFinalTour tour pins = tour := by
      unfold chopFinalTour
      rw [if_pos hp]
    have hlen0 : (pinIdcs tour pins).length = 0 := by
      subst hp
      rw [pinIdcs_nil_pins]
      rfl
    have hf : firstPinB tour pins = false := by
      subst hp
      cases tour <;> simp [firstPinB]
    rw [hft, hlen0, hf]
    refine ⟨?_, ?_, ?_⟩
    · intro hc
      cases hc
    · rintro (h | h)
      · omega
      · cases h
    · simp
  · cases hidx : pinIdcs tour pins with
    | nil =>
      have hft : chopFinalTour tour pins = tour := by
        unfold chopFinalTour
        rw [if_neg hp]
        simp only [hidx]
      rw [hft, firstPinB_of_nil tour pins hidx]
      refine ⟨?_, ?_, ?_⟩
      · intro hc
        cases hc
      · rintro (h | h)
        · simp at h
        · cases h
      · simp
    | cons j1 rest =>
      have hft : chopFinalTour tour pins = specTourAux tour j1 rest := by
        unfold chopFinalTour
        rw [if_neg hp]
        simp only [hidx]
      rw [hft]
      obtain ⟨htne, _⟩ := pinIdcs_head_zero tour pins j1 rest hidx
      have hfb := firstPinB_of_cons tour pins j1 rest hidx
      have htlen : 0 < tour.length := by
        cases tour with
        | nil => exact absurd rfl htne
        | cons a t => simp
      unfold specTourAux
      by_cases hz : j1 = 0
      · rw [if_pos hz]
        refine ⟨fun _ => rfl, fun _ => by simpa using htlen, ?_⟩
        constructor
        · intro hc
          exact absurd hc.symm htne
        · rintro (h | ⟨_, h⟩)
          · simp at h
          · rw [hfb.mpr hz] at h
            cases h
      · rw [if_neg hz]
        have hfbf : firstPinB tour pins = false := by
          cases hq : firstPinB tour pins
          · rfl
          · exact absurd (hfb.mp hq) hz
        rw [hfbf]
        cases rest with
        | nil =>
          simp only [List.nil_append, List.headD_cons, List.take_length]
          refine ⟨?_, ?_, ?_⟩
          · intro hc
            cases hc
          · rintro (h | h)
            · simp at h
            · cases h
          · simp
        | cons j2 rest' =>
          have hj2 : j2 < tour.length := by
            apply pinIdcs_lt tour pins
            rw [hidx]
            simp
          simp only [List.cons_append, List.headD_cons]
          have hlt : (tour.take j2).length < tour.length := by
            rw [List.length_take]
            omega
          refine ⟨?_, fun _ => hlt, ?_⟩
          · intro hc
            cases hc
          · constructor
            · intro hc
              have hle : (tour.take j2).length = tour.length := by rw [hc]
              omega
            · rintro (h | ⟨h, _⟩)
              · simp at h
              · simp at h

/-- Witness for C10: a pinned first point empties the caller's tour, and
it is strictly shorter than before the call. -/
theorem chop_mutates_tour_witness :
    (chop [(1, 1, 1), (3, 1, 1), (3, 3, 1)] [(1, 1, 1)]).2 = [] ∧
      (chop [(1, 1, 1), (3, 1, 1), (3, 3, 1)] [(1, 1, 1)]).2.length <
        ([(1, 1, 1), (3, 1, 1), (3, 3, 1)] : List Point).length :=
  ⟨(chop_mutates_tour [(1, 1, 1), (3, 1, 1), (3, 3, 1)] [(1, 1, 1)]).1
      (by decide),
    (chop_mutates_tour [(1, 1, 1), (3, 1, 1), (3, 3, 1)] [(1, 1, 1)]).2.1
      (Or.inr (by decide))⟩

/-! ## Executable sanity instances of the full pipeline

These are not claim theorems: they document, kernel-checked, that the
embedded pipeline reproduces valid Hamiltonian cycles at small sizes
(order, distinctness, closed unit-step cycle, zero total displacement). -/

set_option maxRecDepth 10000 in
theorem weave_small_instances :
    (weave 1).map
        (fun s => (s.length, s.dedup.length, isCycleB s, totalDisp s)) =
      some (8, 8, true, (0, 0, 0)) ∧
    (weave 2).map
        (fun s => (s.length, s.dedup.length, isCycleB s, totalDisp s)) =
      some (32, 32, true, (0, 0, 0)) ∧
    (weave 3).map
        (fun s => (s.length, s.dedup.length, isCycleB s, totalDisp s)) =
      some (80, 80, true, (0, 0, 0)) ∧
    (weave 4).map
        (fun s => (s.length, s.dedup.length, isCycleB s, totalDisp s)) =
      some (160, 160, true, (0, 0, 0)) := by
  refine ⟨by decide, by decide, by decide, by decide⟩
